import Mathlib

/-
Verification of the memory-mapped 1brc aggregation engine
(`evaluateMmap` and `customStringToIntParser` in the Go source).

Bytes of the mapped file are modelled as `Nat` (ASCII codes), the mapped
buffer as `List Nat`.  Every unchecked Go buffer index `data[i]` is
modelled by a checked read that returns `Except ScanErr`; a Go runtime
panic (slice index out of range) corresponds to `.error .outOfRange`.
Go `int64` values are modelled as `Int` (no aggregation in the claims
comes near 2^63).  The Go `map[uint64]uint64` keyed by `maphash` of the
key bytes is modelled as an association list keyed by the key bytes
themselves (the model assumes the 64-bit hash is injective on the keys
that occur); a Go map read of a missing key yields the zero value 0,
which the model reproduces.  Unbounded Go `for` loops are modelled with
an explicit fuel parameter; running out of fuel is the distinct error
`.fuelOut`, so `.error .outOfRange` unambiguously means the Go code
performed an out-of-range access.
-/

namespace OneBrc

/-- Outcome markers for the modelled scans: `outOfRange` models a Go
slice-bounds panic, `fuelOut` models non-termination of the loop. -/
inductive ScanErr where
  | outOfRange
  | fuelOut
deriving DecidableEq, Repr

/-- Checked read of byte `i` of the buffer; Go `data[i]` panics when
`i >= len(data)`, modelled as `.error .outOfRange`. -/
def readByte (data : List Nat) (i : Nat) : Except ScanErr Nat :=
  if h : i < data.length then .ok (data.get ⟨i, h⟩) else .error .outOfRange

/-- Index of the first occurrence of byte `t`, as Go
`bytes.IndexByte` / the inner `for … range` search loops (returns
`none` where Go keeps `-1` / the stale value). -/
def findByte (t : Nat) : List Nat → Option Nat
  | [] => none
  | c :: cs => if c = t then some 0 else (findByte t cs).map (· + 1)

/-- Index of the last occurrence of byte `t` (Go `bytes.LastIndexByte`). -/
def findByteLast (t : Nat) (l : List Nat) : Option Nat :=
  (findByte t l.reverse).map (fun j => l.length - 1 - j)

/-- Go struct `cityTemperatureInfo{count, min, max, sum int64}`. -/
structure Slot where
  count : Int
  min : Int
  max : Int
  sum : Int
deriving DecidableEq, Repr

/-- Worker tables are zero-valued at creation (`WorkerResults{}`). -/
def zeroSlot : Slot := ⟨0, 0, 0, 0⟩

/-- Worker aggregation step, Go source lines 397-404:
count++, sum += t, min/max updated by comparison only — note there is
no count==0 initialisation branch in `evaluateMmap`'s worker. -/
def updateSlot (s : Slot) (t : Int) : Slot :=
  { count := s.count + 1
    sum := s.sum + t
    min := if t < s.min then t else s.min
    max := if t > s.max then t else s.max }

/-- A worker table, indexed by interned station id. -/
def Table := Nat → Slot

/-- The zero-initialised table `[numberOfMaxStations]cityTemperatureInfo{}`. -/
def zeroTable : Table := fun _ => zeroSlot

/-- One record applied to a worker table:
`workerResults[workerID][stationID]` is updated in place. -/
def updateTable (t : Table) (r : Nat × Int) : Table :=
  fun j => if j = r.1 then updateSlot (t r.1) r.2 else t j

/-- A whole chunk of already-decoded records folded into a fresh table
(the worker loop at the record level). -/
def scanRecs (rs : List (Nat × Int)) : Table :=
  rs.foldl updateTable zeroTable

/-- Merge step, Go source lines 417-431: a source slot with count 0 is
skipped, otherwise counts and sums add and min/max take the extremum. -/
def mergeSlot (acc src : Slot) : Slot :=
  if src.count = 0 then acc
  else
    { count := acc.count + src.count
      sum := acc.sum + src.sum
      min := if src.min < acc.min then src.min else acc.min
      max := if src.max > acc.max then src.max else acc.max }

/-- Folding all worker tables into the final table (`stationResults`). -/
def mergeTables (ts : List Table) : Table :=
  fun id => ts.foldl (fun acc t => mergeSlot acc (t id)) zeroSlot

/-- Go `customStringToIntParser` (source lines 243-263): reads
`input[0]` unconditionally (out of range on the empty slice), strips an
optional leading '-', then switches on the remaining length with cases
3 and 4 only and no default, leaving `output` at 0 otherwise. -/
def customStringToIntParser (input : List Nat) : Except ScanErr Int :=
  match input with
  | [] => .error .outOfRange
  | c :: rest =>
    let neg := c = 45
    let body := if neg then rest else c :: rest
    let output : Int :=
      match body with
      | [a, _, b] => (a : Int) * 10 + (b : Int) - 48 * 11
      | [a, b, _, e] => (a : Int) * 100 + (b : Int) * 10 + (e : Int) - 48 * 111
      | _ => 0
    if neg then .ok (-output) else .ok output

/-- The worker's inline temperature parse (source lines 377-394), on
the suffix of the buffer starting at the value token.  Returns the
parsed tenths value and the number of bytes consumed (Go advances `pos`
by that amount, past the record's newline). -/
def parseTempAt (rest : List Nat) : Except ScanErr (Int × Nat) :=
  match readByte rest 0 with
  | .error e => .error e
  | .ok b0 =>
    let neg := b0 = 45
    let s := if neg then 1 else 0
    let r := if neg then rest.drop 1 else rest
    match readByte r 1 with
    | .error e => .error e
    | .ok b1 =>
      if b1 = 46 then
        match readByte r 2, readByte r 0 with
        | .ok b2, .ok a0 =>
          let t : Int := (b2 : Int) + (a0 : Int) * 10 - 48 * 11
          .ok (if neg then -t else t, s + 4)
        | .error e, _ => .error e
        | _, .error e => .error e
      else
        match readByte r 3, readByte r 1, readByte r 0 with
        | .ok b3, .ok a1, .ok a0 =>
          let t : Int := (b3 : Int) + (a1 : Int) * 10 + (a0 : Int) * 100 - 48 * 111
          .ok (if neg then -t else t, s + 5)
        | .error e, _, _ => .error e
        | _, .error e, _ => .error e
        | _, _, .error e => .error e

/-- The interning state: `stationNames` plus the symbol map (assoc list
standing for the Go `map[uint64]uint64` keyed by the station hash). -/
structure Disc where
  names : List (List Nat)
  tab : List (List Nat × Nat)
deriving Repr

/-- Interning of one key span (source lines 304-309): unseen keys are
appended and get the next dense id (ids count up from 0). -/
def internKey (d : Disc) (key : List Nat) : Disc :=
  match d.tab.find? (fun p => p.1 == key) with
  | some _ => d
  | none => ⟨d.names ++ [key], d.tab ++ [(key, d.tab.length)]⟩

/-- Symbol-map lookup used by workers and the formatter; a missing key
yields the Go map zero value 0 (source line 372). -/
def lookupId (symtab : List (List Nat × Nat)) (key : List Nat) : Nat :=
  match symtab.find? (fun p => p.1 == key) with
  | some p => p.2
  | none => 0

/-- Discovery-prefix loop of `evaluateMmap` (source lines 288-323):
`for pos <= 5_000_000` with no length check against the buffer.  The
state `off0` is the Go variable `off`, declared outside the loop, so a
search that finds no ';' leaves the previous iteration's value in
place.  The three '.'-position checks read `data[pos+2]`, `data[pos+1]`
and `data[pos]` in that order; if none matches, the Go loop re-enters
with `pos` unchanged past the earlier `pos += off + 2`. -/
def discGo (data : List Nat) : Nat → Nat → Nat → Disc → Except ScanErr Disc
  | 0, _, _, _ => .error .fuelOut
  | fuel+1, pos, off0, d =>
    if pos > 5000000 then .ok d
    else
      let off := (findByte 59 (data.drop pos)).getD off0
      if pos + off > data.length then .error .outOfRange
      else
        let d2 := internKey d ((data.drop pos).take off)
        let pos2 := pos + off + 2
        match readByte data (pos2 + 2) with
        | .error e => .error e
        | .ok b2 =>
          if b2 = 46 then discGo data fuel (pos2 + 5) off d2
          else
            match readByte data (pos2 + 1) with
            | .error e => .error e
            | .ok b1 =>
              if b1 = 46 then discGo data fuel (pos2 + 4) off d2
              else
                match readByte data pos2 with
                | .error e => .error e
                | .ok b0 =>
                  if b0 = 46 then discGo data fuel (pos2 + 3) off d2
                  else discGo data fuel pos2 off d2

/-- Discovery entry point: `pos`, `off`, `id` start at zero with empty
name list and symbol map. -/
def discoverStations (data : List Nat) (fuel : Nat) : Except ScanErr Disc :=
  discGo data fuel 0 0 ⟨[], []⟩

/-- The byte interval `[fst, snd)` of the buffer actually scanned by
worker `wid` (source lines 341-347, with `workerCount = 10`): the raw
slice is `data[S*wid : min-ish]`, where `last = S*(wid+1)+20` is
clamped to `len(data)-1` when it exceeds the length, and the worker
then narrows to just after the first newline and just after the last
newline of its slice (Go IndexByte/LastIndexByte return -1, hence
offset 0, when the slice has no newline). -/
def processedRange (data : List Nat) (wid : Nat) : Nat × Nat :=
  let S := data.length / 10
  let lo := S * wid
  let last0 := S * (wid + 1) + 20
  let last := if last0 > data.length then data.length - 1 else last0
  let chunk := (data.drop lo).take (last - lo)
  let a := match findByte 10 chunk with
    | some j => j + 1
    | none => 0
  let b := match findByteLast 10 chunk with
    | some j => j + 1
    | none => 0
  (lo + a, lo + b)

/-- The bytes worker `wid` scans. -/
def chunkBytes (data : List Nat) (wid : Nat) : List Nat :=
  ((data.drop (processedRange data wid).1).take
    ((processedRange data wid).2 - (processedRange data wid).1))

/-- Worker scan loop (source lines 356-405): find the next ';' (stop
when there is none), translate the key through the shared symbol map
(a key missing from the map silently becomes id 0), parse the
temperature, update the worker's own slot, repeat. -/
def scanChunkGo (symtab : List (List Nat × Nat)) :
    Nat → List Nat → Table → Except ScanErr Table
  | 0, _, _ => .error .fuelOut
  | fuel+1, rest, t =>
    match findByte 59 rest with
    | none => .ok t
    | some off =>
      let sid := lookupId symtab (rest.take off)
      match parseTempAt (rest.drop (off + 1)) with
      | .error e => .error e
      | .ok (v, consumed) =>
        scanChunkGo symtab fuel (rest.drop (off + 1 + consumed))
          (updateTable t (sid, v))

/-- The aggregation pipeline of `evaluateMmap` up to the final table:
discovery-prefix interning, the ten workers' chunk scans, and the
merge.  (The float formatting stage is modelled separately.) -/
def evaluateMmapAgg (data : List Nat) (fuel : Nat) :
    Except ScanErr Table :=
  match discoverStations data fuel with
  | .error e => .error e
  | .ok d =>
    match (List.range 10).mapM
        (fun wid => scanChunkGo d.tab fuel (chunkBytes data wid) zeroTable) with
    | .error e => .error e
    | .ok ts => .ok (mergeTables ts)

/-- The 33-byte input of spec test End-to-end A:
"Paris;12.0\nParis;-5.0\nTokyo;20.0\n". -/
def data33 : List Nat :=
  [80, 97, 114, 105, 115, 59, 49, 50, 46, 48, 10,
   80, 97, 114, 105, 115, 59, 45, 53, 46, 48, 10,
   84, 111, 107, 121, 111, 59, 50, 48, 46, 48, 10]

/-- C1: the claim says the full pipeline on the three-record input
"Paris;12.0\nParis;-5.0\nTokyo;20.0\n" produces
"{Paris=-5.0/3.5/12.0, Tokyo=20.0/20.0/20.0}".  In fact the
discovery-prefix loop, whose condition `pos <= 5_000_000` never checks
the 33-byte buffer's length, runs past the end of the input and
performs an out-of-range access, so the pipeline aborts with a
slice-bounds panic instead of producing any output. -/
theorem c1_pipeline_out_of_range :
    evaluateMmapAgg data33 50 = .error .outOfRange := by
  rfl

/-- C2: the claim says the first observation of a key in a worker sets
count=1 and min=max=sum=value.  The worker of `evaluateMmap` has no
count==0 initialisation branch: on the zero-initialised slot a first
observation of +5.0 (tenths value 50) leaves min at the zero initial
value, because 50 < 0 is false. -/
theorem c2_first_observation_min_zero :
    updateSlot zeroSlot 50 = ⟨1, 0, 50, 50⟩ ∧
      (updateSlot zeroSlot 50).min ≠ 50 := by
  decide

/-- C3: the claim says the worker chunk ranges cover every record
exactly once.  On the 33-byte buffer of End-to-end A the processed
ranges of the ten workers are four copies of [11,22) and six empty
ranges: the first record (bytes 0-10) and the third record (bytes
22-32) are covered by no worker, and the second record (bytes 11-21)
is scanned by four workers. -/
theorem c3_chunk_ranges_data33 :
    (List.range 10).map (processedRange data33) =
      [(11, 22), (11, 22), (11, 22), (11, 22), (22, 22), (22, 22),
       (22, 22), (22, 22), (24, 24), (27, 27)] := by
  decide

/-- C4: the claim says a key first appearing after the discovery
prefix surfaces an explicit "unknown key" error.  With a symbol table
containing only key "A" (id 0), scanning the chunk "B;1.0\n" raises no
error: the Go map lookup of the unknown key "B" yields the zero value
0, and the record is silently aggregated into slot 0 — key "A"'s
interned id. -/
theorem c4_unknown_key_aggregated :
    lookupId [([65], 0)] [66] = 0 ∧
      (scanChunkGo [([65], 0)] 3 [66, 59, 49, 46, 48, 10] zeroTable).map
          (fun t => t 0) =
        .ok ⟨1, 0, 10, 10⟩ := by
  constructor
  · rfl
  · rfl


/-- Model of the Go slice header operation input = input[1:] applied when
input[0] is '-': the byte list after stripping one optional leading minus. -/
def stripMinus (input : List Nat) : List Nat :=
  match input with
  | [] => []
  | c :: rest => if c = 45 then rest else c :: rest

theorem readByte_zero (x : Nat) (l : List Nat) : readByte (x :: l) 0 = .ok x := by
  simp [readByte]

theorem readByte_succ (x : Nat) (l : List Nat) (i : Nat) :
    readByte (x :: l) (i + 1) = readByte l i := by
  by_cases h : i < l.length
  · simp [readByte, h, Nat.succ_lt_succ_iff]
  · simp [readByte, h, Nat.succ_lt_succ_iff]

theorem c10_malformed_silent_zero :
    customStringToIntParser [] = .error .outOfRange ∧
      ∀ input : List Nat, input ≠ [] →
        (stripMinus input).length ≠ 3 → (stripMinus input).length ≠ 4 →
        customStringToIntParser input = .ok 0 := by
  refine ⟨rfl, ?_⟩
  intro input h0 h3 h4
  match input, h0 with
  | c :: rest, _ =>
    by_cases hc : c = 45
    · subst hc
      simp only [stripMinus, if_pos rfl] at h3 h4
      match rest, h3, h4 with
      | [], _, _ => rfl
      | [_], _, _ => rfl
      | [_, _], _, _ => rfl
      | [_, _, _], h3, _ => exact absurd rfl h3
      | [_, _, _, _], _, h4 => exact absurd rfl h4
      | _ :: _ :: _ :: _ :: _ :: _, _, _ => rfl
    · simp only [stripMinus, if_neg hc] at h3 h4
      simp only [customStringToIntParser, if_neg hc]
      match rest, h3, h4 with
      | [], _, _ => rfl
      | [_], _, _ => rfl
      | [_, _], h3, _ => exact absurd rfl h3
      | [_, _, _], _, h4 => exact absurd rfl h4
      | _ :: _ :: _ :: _ :: _, _, _ => rfl

theorem c10_witness :
    customStringToIntParser [] = .error .outOfRange ∧
      customStringToIntParser [53] = .ok 0 :=
  ⟨c10_malformed_silent_zero.1,
    c10_malformed_silent_zero.2 [53] (by decide) (by decide) (by decide)⟩


theorem c5_wellformed_token_parse :
    ∀ (neg two : Bool) (a0 a1 f : Nat) (rest : List Nat),
      48 ≤ a0 → a0 ≤ 57 → 48 ≤ a1 → a1 ≤ 57 → 48 ≤ f → f ≤ 57 →
      customStringToIntParser
          ((if neg then [45] else []) ++
            (if two then [a0, a1] else [a0]) ++ [46, f]) =
        .ok ((if neg then (-1 : Int) else 1) *
          (10 * (if two then 10 * ((a0 : Int) - 48) + ((a1 : Int) - 48)
                 else (a0 : Int) - 48) + ((f : Int) - 48))) ∧
      parseTempAt
          (((if neg then [45] else []) ++
            (if two then [a0, a1] else [a0]) ++ [46, f]) ++ 10 :: rest) =
        .ok ((if neg then (-1 : Int) else 1) *
          (10 * (if two then 10 * ((a0 : Int) - 48) + ((a1 : Int) - 48)
                 else (a0 : Int) - 48) + ((f : Int) - 48)),
          ((if neg then [45] else []) ++
            (if two then [a0, a1] else [a0]) ++ [46, f]).length + 1) := by
  intro neg two a0 a1 f rest h0l h0u h1l h1u hfl hfu
  have ha0 : a0 ≠ 45 := by omega
  have ha0d : a0 ≠ 46 := by omega
  have ha1d : a1 ≠ 46 := by omega
  cases neg <;> cases two <;>
    refine ⟨?_, ?_⟩ <;>
      simp [customStringToIntParser, parseTempAt, readByte_zero,
        readByte_succ, ha0, ha0d, ha1d] <;>
      omega

theorem c5_witness :
    customStringToIntParser [49, 50, 46, 51] = .ok 123 ∧
      parseTempAt [45, 53, 46, 48, 10] = .ok (-50, 5) := by
  constructor
  · exact (c5_wellformed_token_parse false true 49 50 51 [] (by decide)
      (by decide) (by decide) (by decide) (by decide) (by decide)).1
  · exact (c5_wellformed_token_parse true false 53 48 48 [] (by decide)
      (by decide) (by decide) (by decide) (by decide) (by decide)).2

/-- ASCII digit byte. -/
def isDigit (c : Nat) : Prop := 48 ≤ c ∧ c ≤ 57

/-- The four shapes of a well-formed numeric token (spec section 6):
optional leading '-', one or two integer digits, '.', one digit. -/
inductive ValTok : List Nat → Prop where
  | short (a b : Nat) : isDigit a → isDigit b → ValTok [a, 46, b]
  | long (a0 a1 b : Nat) : isDigit a0 → isDigit a1 → isDigit b →
      ValTok [a0, a1, 46, b]
  | negShort (a b : Nat) : isDigit a → isDigit b → ValTok [45, a, 46, b]
  | negLong (a0 a1 b : Nat) : isDigit a0 → isDigit a1 → isDigit b →
      ValTok [45, a0, a1, 46, b]

/-- Well-formed key: non-empty, containing neither ';' nor the record
terminator. -/
def keyOK (k : List Nat) : Prop := k ≠ [] ∧ ¬ 59 ∈ k ∧ ¬ 10 ∈ k

/-- One record `key;value\n`. -/
def recordBytes (k v : List Nat) : List Nat := k ++ 59 :: v ++ [10]

/-- A whole file: the concatenation of newline-terminated records. -/
def fileBytes : List (List Nat × List Nat) → List Nat
  | [] => []
  | (k, v) :: rs => recordBytes k v ++ fileBytes rs

theorem readByte_oob (data : List Nat) (i : Nat) (h : data.length ≤ i) :
    readByte data i = .error .outOfRange := by
  simp [readByte, Nat.not_lt.mpr h]

theorem readByte_drop (data : List Nat) (p j : Nat) :
    readByte data (p + j) = readByte (data.drop p) j := by
  by_cases h : p + j < data.length
  · have h2 : j < (data.drop p).length := by
      simp only [List.length_drop]; omega
    simp only [readByte, dif_pos h, dif_pos h2, List.get_eq_getElem,
      List.getElem_drop]
  · have h2 : ¬ j < (data.drop p).length := by
      simp only [List.length_drop]; omega
    simp only [readByte, dif_neg h, dif_neg h2]

theorem findByte_append_cons (t : Nat) (k rest : List Nat) (h : ¬ t ∈ k) :
    findByte t (k ++ t :: rest) = some k.length := by
  induction k with
  | nil => simp [findByte]
  | cons c cs ih =>
    simp only [List.mem_cons, not_or] at h
    have hct : ¬ c = t := fun hh => h.1 hh.symm
    simp [findByte, hct, ih h.2]

theorem drop_append_len (k t : List Nat) (n : Nat) :
    (k ++ t).drop (k.length + n) = t.drop n := by
  rw [List.drop_append]

/-- The discovery loop performs an out-of-range access whenever the
remaining input is a well-formed record suffix that ends at or before
the 5,000,000-byte discovery bound: the scan consumes every record and
then, with the end of the buffer still inside the loop's range, either
slices `data[pos:pos+off]` past the end (stale `off > 0`) or reads
`data[pos+2]` past the end. -/
theorem readByte_drop0 (data : List Nat) (p : Nat) :
    readByte data p = readByte (data.drop p) 0 := by
  rw [show p = p + 0 by omega, readByte_drop]
  simp

theorem discGo_wf_oob (rs : List (List Nat × List Nat)) :
    ∀ (data : List Nat) (fuel pos off0 : Nat) (d : Disc),
      (∀ p ∈ rs, keyOK p.1 ∧ ValTok p.2) →
      data.drop pos = fileBytes rs →
      pos ≤ data.length →
      data.length ≤ 5000000 →
      rs.length < fuel →
      discGo data fuel pos off0 d = .error .outOfRange := by
  induction rs with
  | nil =>
    intro data fuel pos off0 d hwf hdrop hpos hlen hfuel
    match fuel, hfuel with
    | f + 1, _ =>
      simp only [fileBytes] at hdrop
      have hpl : pos = data.length := by
        have hd := congrArg List.length hdrop
        simp only [List.length_drop, List.length_nil] at hd
        omega
      subst hpl
      simp only [discGo, hdrop, findByte, Option.getD_none]
      rw [if_neg (show ¬ data.length > 5000000 by omega)]
      cases off0 with
      | zero =>
        rw [if_neg (show ¬ data.length + 0 > data.length by omega)]
        rw [readByte_oob data (data.length + 0 + 2 + 2) (by omega)]
      | succ m =>
        rw [if_pos (show data.length + (m + 1) > data.length by omega)]
  | cons hd rs' ih =>
    intro data fuel pos off0 d hwf hdrop hpos hlen hfuel
    obtain ⟨k, v⟩ := hd
    have hk : keyOK k := (hwf (k, v) (by simp)).1
    have hv : ValTok v := (hwf (k, v) (by simp)).2
    have hwf' : ∀ p ∈ rs', keyOK p.1 ∧ ValTok p.2 := by
      intro p hp
      exact hwf p (List.mem_cons_of_mem _ hp)
    match fuel, hfuel with
    | f + 1, hfu =>
      have hfuel' : rs'.length < f := by
        simp only [List.length_cons] at hfu
        omega
      have hdrop' : data.drop pos = k ++ 59 :: (v ++ 10 :: fileBytes rs') := by
        rw [hdrop]
        simp [fileBytes, recordBytes, List.append_assoc]
      have hlenpos : data.length - pos =
          k.length + 1 + (v.length + 1 + (fileBytes rs').length) := by
        have hd := congrArg List.length hdrop'
        simp only [List.length_drop, List.length_append, List.length_cons] at hd
        omega
      have hdp : data.drop (pos + k.length + 2) =
          (v ++ 10 :: fileBytes rs').drop 1 := by
        rw [show pos + k.length + 2 = pos + (k.length + (1 + 1)) by omega]
        rw [← List.drop_drop, hdrop', drop_append_len]
        rw [show 1 + 1 = 1 + 0 + 1 by omega]
        rw [List.drop_succ_cons]
      have hdrec : ∀ n : Nat, data.drop (pos + k.length + 2 + n) =
          (v ++ 10 :: fileBytes rs').drop (1 + n) := by
        intro n
        rw [show pos + k.length + 2 + n = pos + (k.length + (1 + n + 1)) by omega]
        rw [← List.drop_drop, hdrop', drop_append_len]
        rw [List.drop_succ_cons]
      simp only [discGo]
      rw [if_neg (show ¬ pos > 5000000 by omega)]
      rw [hdrop', findByte_append_cons 59 k _ hk.2.1]
      simp only [Option.getD_some]
      rw [if_neg (show ¬ pos + k.length > data.length by omega)]
      rw [List.take_left]
      rcases hv with ⟨a, b, ha, hb⟩ | ⟨a0, a1, b, ha0, ha1, hb⟩ |
        ⟨a, b, ha, hb⟩ | ⟨a0, a1, b, ha0, ha1, hb⟩
      · -- v = [a, 46, b]: the '.' is found by the data[pos] check
        obtain ⟨hb1, hb2⟩ := hb
        simp only [List.cons_append, List.nil_append, List.drop_succ_cons,
          List.drop_zero] at hdp
        rw [readByte_drop data (pos + k.length + 2) 2, hdp]
        simp only [readByte_succ, readByte_zero]
        rw [if_neg (show ¬ (10 : Nat) = 46 by decide)]
        rw [readByte_drop data (pos + k.length + 2) 1, hdp]
        simp only [readByte_succ, readByte_zero]
        rw [if_neg (show ¬ b = 46 by omega)]
        rw [readByte_drop0 data (pos + k.length + 2), hdp]
        simp only [readByte_zero, eq_self_iff_true, if_true]
        apply ih data f (pos + k.length + 2 + 3) k.length _ hwf'
        · rw [hdrec 3]
          simp
        · simp only [List.length_cons, List.length_nil] at hlenpos
          omega
        · exact hlen
        · exact hfuel'
      · -- v = [a0, a1, 46, b]: the '.' is found by the data[pos+1] check
        obtain ⟨hb1, hb2⟩ := hb
        simp only [List.cons_append, List.nil_append, List.drop_succ_cons,
          List.drop_zero] at hdp
        rw [readByte_drop data (pos + k.length + 2) 2, hdp]
        simp only [readByte_succ, readByte_zero]
        rw [if_neg (show ¬ b = 46 by omega)]
        rw [readByte_drop data (pos + k.length + 2) 1, hdp]
        simp only [readByte_succ, readByte_zero, eq_self_iff_true, if_true]
        apply ih data f (pos + k.length + 2 + 4) k.length _ hwf'
        · rw [hdrec 4]
          simp
        · simp only [List.length_cons, List.length_nil] at hlenpos
          omega
        · exact hlen
        · exact hfuel'
      · -- v = [45, a, 46, b]: the '.' is found by the data[pos+1] check
        obtain ⟨hb1, hb2⟩ := hb
        simp only [List.cons_append, List.nil_append, List.drop_succ_cons,
          List.drop_zero] at hdp
        rw [readByte_drop data (pos + k.length + 2) 2, hdp]
        simp only [readByte_succ, readByte_zero]
        rw [if_neg (show ¬ b = 46 by omega)]
        rw [readByte_drop data (pos + k.length + 2) 1, hdp]
        simp only [readByte_succ, readByte_zero, eq_self_iff_true, if_true]
        apply ih data f (pos + k.length + 2 + 4) k.length _ hwf'
        · rw [hdrec 4]
          simp
        · simp only [List.length_cons, List.length_nil] at hlenpos
          omega
        · exact hlen
        · exact hfuel'
      · -- v = [45, a0, a1, 46, b]: the '.' is found by the data[pos+2] check
        simp only [List.cons_append, List.nil_append, List.drop_succ_cons,
          List.drop_zero] at hdp
        rw [readByte_drop data (pos + k.length + 2) 2, hdp]
        simp only [readByte_succ, readByte_zero, eq_self_iff_true, if_true]
        apply ih data f (pos + k.length + 2 + 5) k.length _ hwf'
        · rw [hdrec 5]
          simp
        · simp only [List.length_cons, List.length_nil] at hlenpos
          omega
        · exact hlen
        · exact hfuel'

/-- C9: the discovery-prefix loop indexes the buffer with no length
check while `pos <= 5_000_000`; for every well-formed input file of at
most 5,000,000 bytes the scan therefore runs past the end of the
buffer and performs an out-of-range access (so in-bounds discovery
requires a file strictly larger than the discovery bound). -/
theorem c9_prefix_scan_out_of_range (rs : List (List Nat × List Nat))
    (data : List Nat) (fuel : Nat)
    (hwf : ∀ p ∈ rs, keyOK p.1 ∧ ValTok p.2)
    (hdata : data = fileBytes rs)
    (hlen : data.length ≤ 5000000)
    (hfuel : rs.length < fuel) :
    discoverStations data fuel = .error .outOfRange := by
  subst hdata
  exact discGo_wf_oob rs (fileBytes rs) fuel 0 0 ⟨[], []⟩ hwf (by simp)
    (by omega) hlen hfuel

/-- Witness for C9: the single-record well-formed file "Paris;12.0\n"
(11 bytes) makes the discovery scan go out of range. -/
theorem c9_witness :
    discoverStations [80, 97, 114, 105, 115, 59, 49, 50, 46, 48, 10] 2 =
      .error .outOfRange := by
  apply c9_prefix_scan_out_of_range
    [([80, 97, 114, 105, 115], [49, 50, 46, 48])]
  · intro p hp
    simp only [List.mem_singleton] at hp
    subst hp
    exact ⟨⟨by decide, by decide, by decide⟩,
      ValTok.long 49 50 48 ⟨by omega, by omega⟩ ⟨by omega, by omega⟩
        ⟨by omega, by omega⟩⟩
  · rfl
  · decide
  · decide

/-- The tenths values a given station id receives from a record list. -/
def valuesFor (id : Nat) (rs : List (Nat × Int)) : List Int :=
  (rs.filter (fun r => r.1 == id)).map (fun r => r.2)

theorem updateSlot_min (s : Slot) (x : Int) :
    (updateSlot s x).min = min s.min x := by
  simp only [updateSlot, Int.min_def]
  split_ifs <;> omega

theorem updateSlot_max (s : Slot) (x : Int) :
    (updateSlot s x).max = max s.max x := by
  simp only [updateSlot, Int.max_def]
  split_ifs <;> omega

theorem agg_count (vs : List Int) (s : Slot) :
    (vs.foldl updateSlot s).count = s.count + vs.length := by
  induction vs generalizing s with
  | nil => simp
  | cons x xs ih =>
    rw [List.foldl_cons, ih]
    simp only [updateSlot, List.length_cons]
    omega

theorem agg_sum (vs : List Int) (s : Slot) :
    (vs.foldl updateSlot s).sum = s.sum + vs.sum := by
  induction vs generalizing s with
  | nil => simp
  | cons x xs ih =>
    rw [List.foldl_cons, ih]
    simp only [updateSlot, List.sum_cons]
    omega

theorem agg_min (vs : List Int) (s : Slot) :
    (vs.foldl updateSlot s).min = vs.foldl min s.min := by
  induction vs generalizing s with
  | nil => rfl
  | cons x xs ih =>
    rw [List.foldl_cons, ih, List.foldl_cons, updateSlot_min]

theorem agg_max (vs : List Int) (s : Slot) :
    (vs.foldl updateSlot s).max = vs.foldl max s.max := by
  induction vs generalizing s with
  | nil => rfl
  | cons x xs ih =>
    rw [List.foldl_cons, ih, List.foldl_cons, updateSlot_max]

theorem foldl_min_le_init (vs : List Int) (a : Int) : vs.foldl min a ≤ a := by
  induction vs generalizing a with
  | nil => simp
  | cons x xs ih => exact le_trans (ih (min a x)) (min_le_left a x)

theorem foldl_max_init_le (vs : List Int) (a : Int) : a ≤ vs.foldl max a := by
  induction vs generalizing a with
  | nil => simp
  | cons x xs ih => exact le_trans (le_max_left a x) (ih (max a x))

theorem foldl_min_min (vs : List Int) (a c : Int) :
    vs.foldl min (min a c) = min a (vs.foldl min c) := by
  induction vs generalizing c with
  | nil => rfl
  | cons x xs ih =>
    rw [List.foldl_cons, min_assoc, ih (min c x), List.foldl_cons]

theorem foldl_max_max (vs : List Int) (a c : Int) :
    vs.foldl max (max a c) = max a (vs.foldl max c) := by
  induction vs generalizing c with
  | nil => rfl
  | cons x xs ih =>
    rw [List.foldl_cons, max_assoc, ih (max c x), List.foldl_cons]

theorem agg_count_zero (B : List Int) :
    (B.foldl updateSlot zeroSlot).count = B.length := by
  rw [agg_count]
  simp [zeroSlot]

theorem foldl_min_absorb (vs : List Int) (a : Int) (ha : a ≤ 0) :
    vs.foldl min a = min a (vs.foldl min 0) := by
  have h := foldl_min_min vs a 0
  rwa [min_eq_left ha] at h

theorem foldl_max_absorb (vs : List Int) (a : Int) (ha : 0 ≤ a) :
    vs.foldl max a = max a (vs.foldl max 0) := by
  have h := foldl_max_max vs a 0
  rwa [max_eq_left ha] at h

/-- Merging the aggregates of two chunks equals aggregating the
concatenated chunk: the count==0 skip handles the empty chunk, and the
zero seeds absorb because a fold-from-zero min is at most 0 (and the
max at least 0). -/
theorem mergeSlot_agg_append (A B : List Int) :
    mergeSlot (A.foldl updateSlot zeroSlot) (B.foldl updateSlot zeroSlot) =
      (A ++ B).foldl updateSlot zeroSlot := by
  rcases B with _ | ⟨b, bs⟩
  · rw [List.foldl_nil, List.append_nil, mergeSlot,
      if_pos (show zeroSlot.count = 0 from rfl)]
  · have hb : ((b :: bs).foldl updateSlot zeroSlot).count ≠ 0 := by
      rw [agg_count_zero]
      simp only [List.length_cons]
      omega
    simp only [mergeSlot, if_neg hb]
    have hminA : A.foldl min (0 : Int) ≤ 0 := foldl_min_le_init A 0
    have hmaxA : (0 : Int) ≤ A.foldl max 0 := foldl_max_init_le A 0
    refine Slot.mk.injEq _ _ _ _ _ _ _ _ ▸ ⟨?_, ?_, ?_, ?_⟩
    · rw [agg_count, agg_count, agg_count]
      simp only [zeroSlot, List.length_append]
      omega
    · rw [agg_min, agg_min, agg_min, List.foldl_append]
      simp only [zeroSlot]
      rw [foldl_min_absorb (b :: bs) _ hminA, Int.min_def]
      split_ifs <;> omega
    · rw [agg_max, agg_max, agg_max, List.foldl_append]
      simp only [zeroSlot]
      rw [foldl_max_absorb (b :: bs) _ hmaxA, Int.max_def]
      split_ifs <;> omega
    · rw [agg_sum, agg_sum, agg_sum]
      simp only [zeroSlot, List.sum_append]
      omega

theorem mergeAgg_join (Ls : List (List Int)) (A : List Int) :
    (Ls.map (fun B => B.foldl updateSlot zeroSlot)).foldl mergeSlot
        (A.foldl updateSlot zeroSlot) =
      (A ++ Ls.flatten).foldl updateSlot zeroSlot := by
  induction Ls generalizing A with
  | nil => simp
  | cons B Ls ih =>
    simp only [List.map_cons, List.foldl_cons, mergeSlot_agg_append,
      List.flatten_cons]
    rw [ih (A ++ B)]
    simp [List.append_assoc]

theorem scanRecs_aux_apply (rs : List (Nat × Int)) (t : Table) (id : Nat) :
    rs.foldl updateTable t id = (valuesFor id rs).foldl updateSlot (t id) := by
  induction rs generalizing t with
  | nil => rfl
  | cons r rs ih =>
    obtain ⟨j, x⟩ := r
    rw [List.foldl_cons, ih]
    by_cases hj : j = id
    · subst hj
      simp [valuesFor, updateTable]
    · have hj2 : ¬ (j == id) = true := by simp [hj]
      simp [valuesFor, updateTable, hj, hj2, Ne.symm hj]

theorem scanRecs_apply (rs : List (Nat × Int)) (id : Nat) :
    scanRecs rs id = (valuesFor id rs).foldl updateSlot zeroSlot :=
  scanRecs_aux_apply rs zeroTable id

theorem valuesFor_append (id : Nat) (a b : List (Nat × Int)) :
    valuesFor id (a ++ b) = valuesFor id a ++ valuesFor id b := by
  simp [valuesFor, List.filter_append]

theorem valuesFor_flatten (id : Nat) (P : List (List (Nat × Int))) :
    valuesFor id P.flatten = (P.map (valuesFor id)).flatten := by
  induction P with
  | nil => rfl
  | cons c P ih =>
    rw [List.flatten_cons, valuesFor_append, ih, List.map_cons,
      List.flatten_cons]

theorem mergeAgg_flatten_zero (Ls : List (List Int)) :
    (Ls.map (fun B => B.foldl updateSlot zeroSlot)).foldl mergeSlot zeroSlot =
      Ls.flatten.foldl updateSlot zeroSlot := by
  have h := mergeAgg_join Ls []
  simpa using h

theorem mergeTables_apply (ts : List Table) (id : Nat) :
    mergeTables ts id = (ts.map (fun t => t id)).foldl mergeSlot zeroSlot := by
  rw [mergeTables, List.foldl_map]

theorem mergeSlot_right_comm (acc a b : Slot) :
    mergeSlot (mergeSlot acc a) b = mergeSlot (mergeSlot acc b) a := by
  by_cases ha : a.count = 0 <;> by_cases hb : b.count = 0
  · simp only [mergeSlot, if_pos ha, if_pos hb]
  · simp only [mergeSlot, if_pos ha, if_neg hb]
  · simp only [mergeSlot, if_neg ha, if_pos hb]
  · simp only [mergeSlot, if_neg ha, if_neg hb]
    refine Slot.mk.injEq _ _ _ _ _ _ _ _ ▸ ⟨?_, ?_, ?_, ?_⟩
    · omega
    · split_ifs <;> omega
    · split_ifs <;> omega
    · omega

theorem foldl_mergeSlot_perm {l1 l2 : List Slot} (h : l1.Perm l2) (acc : Slot) :
    l1.foldl mergeSlot acc = l2.foldl mergeSlot acc :=
  h.foldl_eq' (fun x _ y _ z => mergeSlot_right_comm z x y) acc

/-- C7: as long as the chunks are record-aligned (modelled as
partitions of the same record list), the merged final table does not
depend on how many chunks the records are split into nor on the order
in which the worker tables are folded. -/
theorem c7_partition_invariance
    (P1 P2 : List (List (Nat × Int))) (ts1 ts2 : List Table)
    (hjoin : P1.flatten = P2.flatten)
    (h1 : ts1.Perm (P1.map scanRecs)) (h2 : ts2.Perm (P2.map scanRecs))
    (id : Nat) :
    mergeTables ts1 id = mergeTables ts2 id := by
  suffices key : ∀ (P : List (List (Nat × Int))) (ts : List Table),
      ts.Perm (P.map scanRecs) → mergeTables ts id = scanRecs P.flatten id by
    rw [key P1 ts1 h1, key P2 ts2 h2, hjoin]
  intro P ts hp
  rw [mergeTables_apply, foldl_mergeSlot_perm (hp.map (fun t => t id)) zeroSlot]
  rw [List.map_map]
  have hmap : P.map ((fun t => t id) ∘ scanRecs) =
      (P.map (valuesFor id)).map (fun B => B.foldl updateSlot zeroSlot) := by
    rw [List.map_map]
    refine List.map_congr_left ?_
    intro c _
    simp only [Function.comp]
    exact scanRecs_apply c id
  rw [hmap, mergeAgg_flatten_zero, scanRecs_apply, valuesFor_flatten]

/-- Witness for C7: splitting three records into two chunks and
merging gives the same final slot as a single chunk. -/
theorem c7_witness :
    mergeTables ([[(0, 120)], [(0, -50), (1, 200)]].map scanRecs) 0 =
      mergeTables ([[(0, 120), (0, -50), (1, 200)]].map scanRecs) 0 :=
  c7_partition_invariance [[(0, 120)], [(0, -50), (1, 200)]]
    [[(0, 120), (0, -50), (1, 200)]] _ _ rfl (List.Perm.refl _)
    (List.Perm.refl _) 0

/-- Decimal digit bytes of a natural number, most significant first
(fuel-structured so that it evaluates by reduction; the fuel n is
always sufficient since a number needs at most n+1 digits). -/
def digitsOfAux : Nat → Nat → List Nat
  | 0, n => [48 + n % 10]
  | fuel+1, n => if n < 10 then [48 + n] else digitsOfAux fuel (n / 10) ++ [48 + n % 10]

/-- Decimal digit bytes of `n`. -/
def digitsOf (n : Nat) : List Nat := digitsOfAux n n

/-- Rendering of a tenths integer with one fractional digit.  Models
`strconv.FormatFloat(float64(m)/10, 'f', 1, 64)` (source lines 449 and
453) for the tenths values reachable here (|m| at most 999): for those
values the float64 conversion formats back to exactly the decimal
m/10, i.e. sign, integer digits, '.', one fractional digit. -/
def renderTenths (m : Int) : List Nat :=
  (if m < 0 then [45] else []) ++ digitsOf (m.natAbs / 10) ++
    [46, 48 + m.natAbs % 10]

/-- Round n/d (d positive) to the nearest integer, ties to even. -/
def roundHalfEven (n d : Int) : Int :=
  let q := Int.fdiv n d
  let r := n - d * q
  if 2 * r < d then q
  else if 2 * r > d then q + 1
  else if q % 2 = 0 then q else q + 1

/-- Rendering of the average.  Models
`strconv.FormatFloat(float64(sum)/(float64(count)*10), 'f', 1, 64)`
(source line 451): count = 0 gives the IEEE quotient 0/0 = NaN which
Go prints as "NaN"; otherwise the printed string is a one-decimal
number whose digits are the rounded tenths of sum/count.  When the
quotient is exactly representable in binary64 (such as a tie like
5/20 = 0.25) every float64 operation is exact and Go's
fixed-precision formatting rounds the exact halfway case to the even
digit, which `roundHalfEven` reproduces exactly; for non-representable
quotients the binary float's sub-ulp deviation can move the rounding
of near-tie values, which never changes the sign/digits/dot shape. -/
def renderAvg (sum count : Int) : List Nat :=
  if count = 0 then [78, 97, 78]
  else renderTenths (roundHalfEven sum count)

/-- Modelled from the spec: the round-half-away-from-zero rule that
the spec (section 4.5) prescribes for the average, to be compared with
the formatter's actual rounding (d is positive here). -/
def roundHalfAwayFromZero (n d : Int) : Int :=
  let q := Int.fdiv n d
  let r := n - d * q
  if 2 * r < d then q
  else if 2 * r > d then q + 1
  else if 0 ≤ n then q + 1 else q

/-- bytes.Compare(a, b) < 0 — strict byte-lexicographic order. -/
def lexLt : List Nat → List Nat → Bool
  | [], [] => false
  | [], _ :: _ => true
  | _ :: _, [] => false
  | a :: as, b :: bs => if a < b then true else if b < a then false else lexLt as bs

/-- bytes.Compare(a, b) <= 0. -/
def lexLe (a b : List Nat) : Bool := !(lexLt b a)

/-- Insertion step of the sort. -/
def insertSorted (x : List Nat) : List (List Nat) → List (List Nat)
  | [] => [x]
  | y :: ys => if lexLe x y then x :: y :: ys else y :: insertSorted x ys

/-- Models the observable result of
`slices.SortFunc(stationNames, bytes.Compare)` (source lines 330-336):
the station names are pairwise distinct, so the sorted sequence is
unique and the modelling sort algorithm is immaterial. -/
def sortNames : List (List Nat) → List (List Nat)
  | [] => []
  | x :: xs => insertSorted x (sortNames xs)

/-- One output entry `station=min/avg/max` (source lines 445-453). -/
def renderEntry (symtab : List (List Nat × Nat)) (tab : Table)
    (station : List Nat) : List Nat :=
  station ++ [61] ++ renderTenths (tab (lookupId symtab station)).min ++
    [47] ++ renderAvg (tab (lookupId symtab station)).sum
      (tab (lookupId symtab station)).count ++
    [47] ++ renderTenths (tab (lookupId symtab station)).max

/-- The output loop (source lines 440-454): ", " before every entry
except the one at index 0. -/
def outLoop : List (List Nat) → Nat → List Nat → List Nat
  | [], _, buf => buf
  | e :: es, i, buf =>
      outLoop es (i + 1) (buf ++ (if i ≠ 0 then [44, 32] else []) ++ e)

/-- Entries joined by ", " (the closed form of the output loop). -/
def joinComma : List (List Nat) → List Nat
  | [] => []
  | e :: es => e ++ (es.map (fun x => [44, 32] ++ x)).flatten

/-- The whole output buffer (source lines 436-456): '{', the joined
entries in sorted-name order, '}', '\n'. -/
def formatOutput (symtab : List (List Nat × Nat)) (names : List (List Nat))
    (tab : Table) : List Nat :=
  outLoop ((sortNames names).map (renderEntry symtab tab)) 0 [123] ++ [125, 10]

/-- Shape required by the spec for every rendered number: an optional
minus sign, at least one integer digit, a dot, and exactly one
fractional digit (this definition follows the spec's words, to be
compared with what the formatter emits). -/
def OneFracNumber (l : List Nat) : Prop :=
  ∃ (s ds : List Nat) (d : Nat),
    (s = [] ∨ s = [45]) ∧ ds ≠ [] ∧ (∀ c ∈ ds, 48 ≤ c ∧ c ≤ 57) ∧
    48 ≤ d ∧ d ≤ 57 ∧ l = s ++ ds ++ [46, d]

theorem digitsOfAux_digits (fuel : Nat) :
    ∀ (n : Nat), ∀ c ∈ digitsOfAux fuel n, 48 ≤ c ∧ c ≤ 57 := by
  induction fuel with
  | zero =>
    intro n c hc
    simp only [digitsOfAux, List.mem_singleton] at hc
    have := Nat.mod_lt n (show 0 < 10 by omega)
    omega
  | succ fuel ih =>
    intro n c hc
    simp only [digitsOfAux] at hc
    by_cases h : n < 10
    · rw [if_pos h] at hc
      simp only [List.mem_singleton] at hc
      omega
    · rw [if_neg h] at hc
      rcases List.mem_append.mp hc with h1 | h2
      · exact ih (n / 10) c h1
      · simp only [List.mem_singleton] at h2
        have := Nat.mod_lt n (show 0 < 10 by omega)
        omega

theorem digitsOfAux_ne_nil (fuel n : Nat) : digitsOfAux fuel n ≠ [] := by
  cases fuel with
  | zero => simp [digitsOfAux]
  | succ fuel =>
    simp only [digitsOfAux]
    by_cases h : n < 10
    · simp [h]
    · simp [h]

theorem oneFrac_renderTenths (m : Int) : OneFracNumber (renderTenths m) := by
  refine ⟨if m < 0 then [45] else [], digitsOf (m.natAbs / 10),
    48 + m.natAbs % 10, ?_, digitsOfAux_ne_nil _ _, digitsOfAux_digits _ _,
    by omega, ?_, rfl⟩
  · by_cases h : m < 0
    · right; rw [if_pos h]
    · left; rw [if_neg h]
  · have := Nat.mod_lt m.natAbs (show 0 < 10 by omega)
    omega

theorem oneFrac_renderAvg (sum count : Int) (h : count ≠ 0) :
    OneFracNumber (renderAvg sum count) := by
  rw [renderAvg, if_neg h]
  exact oneFrac_renderTenths _

theorem lexLt_irrefl : ∀ a : List Nat, lexLt a a = false
  | [] => rfl
  | x :: as => by
    rw [lexLt, if_neg (lt_irrefl x), if_neg (lt_irrefl x)]
    exact lexLt_irrefl as

theorem lexLt_trans : ∀ a b c : List Nat,
    lexLt a b = true → lexLt b c = true → lexLt a c = true
  | [], _ :: _, _ :: _, _, _ => rfl
  | [], [], _, h1, _ => by simp [lexLt] at h1
  | [], _ :: _, [], _, h2 => by simp [lexLt] at h2
  | _ :: _, [], _, h1, _ => by simp [lexLt] at h1
  | _ :: _, _ :: _, [], _, h2 => by simp [lexLt] at h2
  | a :: as, b :: bs, c :: cs, h1, h2 => by
    simp only [lexLt] at h1 h2 ⊢
    by_cases hab : a < b
    · by_cases hbc : b < c
      · rw [if_pos (by omega : a < c)]
      · rw [if_neg hbc] at h2
        by_cases hcb : c < b
        · simp [hcb] at h2
        · rw [if_pos (by omega : a < c)]
    · rw [if_neg hab] at h1
      by_cases hba : b < a
      · simp [hba] at h1
      · rw [if_neg hba] at h1
        by_cases hbc : b < c
        · rw [if_pos (by omega : a < c)]
        · rw [if_neg hbc] at h2
          by_cases hcb : c < b
          · simp [hcb] at h2
          · rw [if_neg hcb] at h2
            rw [if_neg (by omega : ¬ a < c), if_neg (by omega : ¬ c < a)]
            exact lexLt_trans as bs cs h1 h2

theorem lexLt_conn : ∀ a b : List Nat,
    lexLt a b = false → lexLt b a = false → a = b
  | [], [], _, _ => rfl
  | [], _ :: _, h1, _ => by simp [lexLt] at h1
  | _ :: _, [], _, h2 => by simp [lexLt] at h2
  | a :: as, b :: bs, h1, h2 => by
    simp only [lexLt] at h1 h2
    by_cases hab : a < b
    · simp [hab] at h1
    · by_cases hba : b < a
      · simp [hba, hab] at h2
      · rw [if_neg hab, if_neg hba] at h1
        rw [if_neg hba, if_neg hab] at h2
        have hcong : a = b := by omega
        rw [hcong, lexLt_conn as bs h1 h2]

theorem lexLt_asymm (a b : List Nat) (h : lexLt a b = true) :
    lexLt b a = false := by
  cases hv : lexLt b a
  · rfl
  · have := lexLt_trans a b a h hv
    rw [lexLt_irrefl] at this
    exact Bool.noConfusion this

theorem lexLe_total (a b : List Nat) : lexLe a b = true ∨ lexLe b a = true := by
  rw [lexLe, lexLe]
  cases hv : lexLt b a
  · left; rfl
  · right
    rw [lexLt_asymm b a hv]
    rfl

theorem lexLe_trans (a b c : List Nat) (h1 : lexLe a b = true)
    (h2 : lexLe b c = true) : lexLe a c = true := by
  have hba : lexLt b a = false := by
    rw [lexLe] at h1
    cases hv : lexLt b a
    · rfl
    · rw [hv] at h1
      exact absurd h1 (by decide)
  have hcb : lexLt c b = false := by
    rw [lexLe] at h2
    cases hv : lexLt c b
    · rfl
    · rw [hv] at h2
      exact absurd h2 (by decide)
  rw [lexLe]
  cases hca : lexLt c a
  · rfl
  · exfalso
    cases hbc : lexLt b c
    · have hbceq := lexLt_conn b c hbc hcb
      rw [hbceq, hca] at hba
      exact Bool.noConfusion hba
    · have htr := lexLt_trans b c a hbc hca
      rw [hba] at htr
      exact Bool.noConfusion htr

theorem lexLt_of_le_of_ne (a b : List Nat) (h : lexLe a b = true)
    (hne : a ≠ b) : lexLt a b = true := by
  cases hv : lexLt a b
  · exfalso
    have hba : lexLt b a = false := by
      rw [lexLe] at h
      cases hw : lexLt b a
      · rfl
      · rw [hw] at h
        exact absurd h (by decide)
    exact hne (lexLt_conn a b hv hba)
  · rfl

theorem insertSorted_perm (x : List Nat) :
    ∀ l : List (List Nat), (insertSorted x l).Perm (x :: l)
  | [] => List.Perm.refl _
  | y :: ys => by
    rw [insertSorted]
    by_cases h : lexLe x y = true
    · rw [if_pos h]
    · rw [if_neg h]
      exact ((insertSorted_perm x ys).cons y).trans (List.Perm.swap x y ys)

theorem insertSorted_sorted (x : List Nat) (l : List (List Nat))
    (hl : l.Pairwise (fun a b => lexLe a b = true)) :
    (insertSorted x l).Pairwise (fun a b => lexLe a b = true) := by
  induction l with
  | nil => simp [insertSorted]
  | cons y ys ih =>
    rw [insertSorted]
    rcases List.pairwise_cons.mp hl with ⟨hy, hys⟩
    by_cases h : lexLe x y = true
    · rw [if_pos h]
      refine List.pairwise_cons.mpr ⟨?_, hl⟩
      intro z hz
      rcases List.mem_cons.mp hz with rfl | hz2
      · exact h
      · exact lexLe_trans x y z h (hy z hz2)
    · rw [if_neg h]
      refine List.pairwise_cons.mpr ⟨?_, ih hys⟩
      intro z hz
      have hz3 := (insertSorted_perm x ys).mem_iff.mp hz
      rcases List.mem_cons.mp hz3 with rfl | hz4
      · rcases lexLe_total z y with hxy | hyx
        · exact absurd hxy h
        · exact hyx
      · exact hy z hz4

theorem sortNames_perm : ∀ l : List (List Nat), (sortNames l).Perm l
  | [] => List.Perm.refl _
  | x :: xs =>
    (insertSorted_perm x (sortNames xs)).trans ((sortNames_perm xs).cons x)

theorem sortNames_sorted (l : List (List Nat)) :
    (sortNames l).Pairwise (fun a b => lexLe a b = true) := by
  induction l with
  | nil => simp [sortNames]
  | cons x xs ih => exact insertSorted_sorted x _ ih

theorem sortNames_strict (l : List (List Nat)) (h : l.Nodup) :
    (sortNames l).Pairwise (fun a b => lexLt a b = true) := by
  have hnd : (sortNames l).Nodup := (sortNames_perm l).nodup_iff.mpr h
  have hs := sortNames_sorted l
  exact (hs.and hnd).imp (fun hab => lexLt_of_le_of_ne _ _ hab.1 hab.2)

theorem outLoop_pos : ∀ (es : List (List Nat)) (i : Nat) (buf : List Nat),
    i ≠ 0 → outLoop es i buf = buf ++ (es.map (fun x => [44, 32] ++ x)).flatten
  | [], i, buf, _ => by simp [outLoop]
  | e :: es, i, buf, hi => by
    rw [outLoop, if_pos hi, outLoop_pos es (i + 1) _ (by omega)]
    simp [List.append_assoc]

theorem formatOutput_join (symtab : List (List Nat × Nat))
    (names : List (List Nat)) (tab : Table) :
    formatOutput symtab names tab =
      [123] ++ joinComma ((sortNames names).map (renderEntry symtab tab)) ++
        [125, 10] := by
  rw [formatOutput]
  rcases hes : (sortNames names).map (renderEntry symtab tab) with _ | ⟨e, es⟩
  · rw [joinComma]
    rfl
  · rw [outLoop, if_neg (by simp : ¬ (0 : Nat) ≠ 0),
      outLoop_pos es 1 _ (by omega), joinComma]
    simp [List.append_assoc]

/-- C8 (amended): provided every listed key has a counted observation,
the output buffer is '{', the entries joined by ", ", '}' and a
newline; the keys appear in strictly ascending byte-lexicographic
order; each entry is key=min/avg/max and each of the three numbers is
an optional '-', integer digits, '.', exactly one fractional digit. -/
theorem c8_output_shape (symtab : List (List Nat × Nat))
    (names : List (List Nat)) (tab : Table)
    (hnd : names.Nodup)
    (hcount : ∀ nm ∈ names, (tab (lookupId symtab nm)).count ≠ 0) :
    (sortNames names).Pairwise (fun a b => lexLt a b = true) ∧
    formatOutput symtab names tab =
      [123] ++ joinComma ((sortNames names).map (renderEntry symtab tab)) ++
        [125, 10] ∧
    ∀ nm ∈ names,
      renderEntry symtab tab nm =
        nm ++ [61] ++ renderTenths (tab (lookupId symtab nm)).min ++ [47] ++
          renderAvg (tab (lookupId symtab nm)).sum
            (tab (lookupId symtab nm)).count ++ [47] ++
          renderTenths (tab (lookupId symtab nm)).max ∧
      OneFracNumber (renderTenths (tab (lookupId symtab nm)).min) ∧
      OneFracNumber (renderAvg (tab (lookupId symtab nm)).sum
        (tab (lookupId symtab nm)).count) ∧
      OneFracNumber (renderTenths (tab (lookupId symtab nm)).max) := by
  refine ⟨sortNames_strict names hnd, formatOutput_join symtab names tab, ?_⟩
  intro nm hm
  exact ⟨rfl, oneFrac_renderTenths _,
    oneFrac_renderAvg _ _ (hcount nm hm), oneFrac_renderTenths _⟩

/-- Witness for C8: one station "A" with slot {count 1, min -50,
max 120, sum 70}. -/
theorem c8_witness :
    formatOutput [([65], 0)] [[65]] (fun _ => (⟨1, -50, 120, 70⟩ : Slot)) =
      [123] ++ joinComma ((sortNames [[65]]).map
        (renderEntry [([65], 0)] (fun _ => (⟨1, -50, 120, 70⟩ : Slot)))) ++
      [125, 10] :=
  (c8_output_shape [([65], 0)] [[65]] (fun _ => (⟨1, -50, 120, 70⟩ : Slot))
    (by decide)
    (by
      intro nm hm
      rw [List.mem_singleton] at hm
      subst hm
      decide)).2.1

/-- C6: the claim says the rendered average uses
round-half-away-from-zero.  At the exact tie sum=5, count=2 (one key
with the observations 0.2 and 0.3) every float64 operation in the
formatter is exact — 5/20 = 0.25 is exactly representable — and Go's
fixed-precision formatting rounds the exact halfway case to the even
digit, printing "0.2"; the claimed round-half-away-from-zero would
print "0.3". -/
theorem c6_tie_rounds_to_even :
    renderAvg 5 2 = [48, 46, 50] ∧
    renderTenths (roundHalfAwayFromZero 5 2) = [48, 46, 51] ∧
    renderAvg 5 2 ≠ renderTenths (roundHalfAwayFromZero 5 2) := by
  decide

/-- Counterexample for C8 as frozen: a discovered station whose final
slot has count 0 (reachable because the chunking drops records, see
C3) renders its average as "NaN", which is not a one-fractional-digit
number; the full buffer is "{A=0.0/NaN/0.0}\n". -/
theorem c8_nan_counterexample :
    formatOutput [([65], 0)] [[65]] zeroTable =
      [123, 65, 61, 48, 46, 48, 47, 78, 97, 78, 47, 48, 46, 48, 125, 10] ∧
    renderAvg (zeroTable 0).sum (zeroTable 0).count = [78, 97, 78] ∧
    ¬ OneFracNumber [78, 97, 78] := by
  refine ⟨by decide, rfl, ?_⟩
  rintro ⟨s, ds, d, hs, hds, hdig, hd1, hd2, heq⟩
  rcases hs with rfl | rfl
  · rcases ds with _ | ⟨c1, ds⟩
    · exact hds rfl
    · rcases ds with _ | ⟨c2, ds⟩
      · simp at heq
      · have hlen := congrArg List.length heq
        simp at hlen
  · simp at heq

end OneBrc
